import Mathlib

/-
Formal model of the options analytics engine in `src/options.py`
(class `AdvancedOptionsAnalyzer`): the max-pain scan, the overview
analysis (totals, put/call ratios, wall strikes, top-5 contracts by
activity) and the gamma/delta exposure profile builder.

DataFrames are modelled as lists of row structures over ℚ.  The
overview and max-pain methods only ever see normalized chains (the
fetch layer coerces every required column to numeric and fills nulls
with 0), so their rows carry total rational fields.  The exposure
builder inspects column presence and nullness, so it works on a raw
frame whose entries are `Option ℚ` (`none` models a null/NaN cell) and
which records which columns exist.  In-place column assignments
(`calls_df['oi_vol_product'] = ...`, `calls_df['gex'] = ...`) are
modelled by returning the updated frames alongside the result.
`np.argmin` / `Series.idxmax` on an empty sequence raise in pandas and
numpy; those partial operations are modelled with `Option`, `none`
standing for the raised exception.
-/

/-- One normalized option contract row (one row of `calls_df` / `puts_df`
after the fetch layer has coerced the required columns to numeric and
filled nulls with 0).  `oi_vol_product` models the derived column of the
same name: `none` means the column is absent from the frame. -/
structure OptionRow where
  strike : ℚ
  openInterest : ℚ
  volume : ℚ
  impliedVolatility : ℚ
  delta : ℚ
  gamma : ℚ
  oi_vol_product : Option ℚ := none
deriving Repr, DecidableEq

/-- The strike column of a frame, as a list. -/
def strikeValues (rows : List OptionRow) : List ℚ :=
  rows.map OptionRow.strike

/-- `sorted(list(set(calls_df['strike'].tolist() + puts_df['strike'].tolist())))`:
the candidate strike set, i.e. the deduplicated union of call and put
strikes in ascending order. -/
def sortedStrikes (calls puts : List OptionRow) : List ℚ :=
  ((strikeValues calls ++ strikeValues puts).dedup).insertionSort (· ≤ ·)

/-- `((test_price - calls_df[calls_df['strike'] < test_price]['strike']) *
calls_df[calls_df['strike'] < test_price]['openInterest']).sum()`. -/
def call_loss (calls : List OptionRow) (P : ℚ) : ℚ :=
  ((calls.filter (fun r => r.strike < P)).map
    (fun r => (P - r.strike) * r.openInterest)).sum

/-- `((puts_df[puts_df['strike'] > test_price]['strike'] - test_price) *
puts_df[puts_df['strike'] > test_price]['openInterest']).sum()`. -/
def put_loss (puts : List OptionRow) (P : ℚ) : ℚ :=
  ((puts.filter (fun r => P < r.strike)).map
    (fun r => (r.strike - P) * r.openInterest)).sum

/-- `call_loss + put_loss` at a candidate test price. -/
def total_loss (calls puts : List OptionRow) (P : ℚ) : ℚ :=
  call_loss calls P + put_loss puts P

/-- `np.argmin` over a list, returning the element at the first index
attaining the minimum of `f`; `none` models the `ValueError` numpy
raises on an empty sequence. -/
def argminFirst {α : Type} (f : α → ℚ) : List α → Option α
  | [] => none
  | x :: xs =>
    match argminFirst f xs with
    | none => some x
    | some y => if f x ≤ f y then some x else some y

/-- `calculate_max_pain`: scan the sorted candidate strikes, compute the
writer loss at each, and return the candidate at `np.argmin` of the
losses.  `none` models the `ValueError` that `np.argmin` raises when the
candidate list is empty (that exception fires before the
`if strikes else 0` fallback on the return line is ever evaluated). -/
def calculate_max_pain (calls puts : List OptionRow) : Option ℚ :=
  argminFirst (total_loss calls puts) (sortedStrikes calls puts)

/-- Concrete call side used by witnesses: the worked scenario of the
spec, calls at strike 90 (OI 100) and strike 110 (OI 10). -/
def demoCalls : List OptionRow :=
  [⟨90, 100, 0, 0, 0, 0, none⟩, ⟨110, 10, 0, 0, 0, 0, none⟩]

/-- Concrete put side used by witnesses: puts at strike 90 (OI 5) and
strike 110 (OI 100). -/
def demoPuts : List OptionRow :=
  [⟨90, 5, 0, 0, 0, 0, none⟩, ⟨110, 100, 0, 0, 0, 0, none⟩]

/-- `Series.idxmax` over a list: the element at the first index attaining
the maximum of `f` (pandas returns the first occurrence of the maximum);
`none` models the `ValueError` pandas raises on an empty series. -/
def idxmaxFirst {α : Type} (f : α → ℚ) : List α → Option α
  | [] => none
  | x :: xs =>
    match idxmaxFirst f xs with
    | none => some x
    | some y => if f y ≤ f x then some x else some y

/-- `df.groupby('strike')['openInterest'].sum()` looked up at strike `k`
after the join on the unioned strike index with `fillna(0)`: the summed
open interest of the rows of one side at strike `k`, 0 when the side has
no row there. -/
def sumOIAt (rows : List OptionRow) (k : ℚ) : ℚ :=
  ((rows.filter (fun r => r.strike = k)).map OptionRow.openInterest).sum

/-- `call_wall = profile_df['call_oi'].idxmax()`. -/
def call_wall (calls puts : List OptionRow) : Option ℚ :=
  idxmaxFirst (sumOIAt calls) (sortedStrikes calls puts)

/-- `put_wall = profile_df['put_oi'].idxmax()`. -/
def put_wall (calls puts : List OptionRow) : Option ℚ :=
  idxmaxFirst (sumOIAt puts) (sortedStrikes calls puts)

/-- `calls_df['openInterest'].sum()` for one side. -/
def total_oi (rows : List OptionRow) : ℚ :=
  (rows.map OptionRow.openInterest).sum

/-- `calls_df['volume'].sum()` for one side. -/
def total_vol (rows : List OptionRow) : ℚ :=
  (rows.map OptionRow.volume).sum

/-- `pcr_oi = total_put_oi / total_call_oi if total_call_oi > 0 else 0`. -/
def pcr_oi (calls puts : List OptionRow) : ℚ :=
  if 0 < total_oi calls then total_oi puts / total_oi calls else 0

/-- `pcr_vol = total_put_vol / total_call_vol if total_call_vol > 0 else 0`. -/
def pcr_vol (calls puts : List OptionRow) : ℚ :=
  if 0 < total_vol calls then total_vol puts / total_vol calls else 0

/-- `oi_vol_product`: the activity score `openInterest * volume` of one
row (`calls_df['openInterest'] * calls_df['volume']`). -/
def oiVolScore (r : OptionRow) : ℚ :=
  r.openInterest * r.volume

/-- The ranking relation of `nlargest(5, 'oi_vol_product')`: row `a`
may come before row `b` exactly when its activity score is at least as
large (descending stable sort). -/
def scoreGE (a b : OptionRow) : Prop :=
  oiVolScore b ≤ oiVolScore a

instance : DecidableRel scoreGE :=
  fun a b => inferInstanceAs (Decidable (oiVolScore b ≤ oiVolScore a))

instance : IsTotal OptionRow scoreGE :=
  ⟨fun a b => le_total (oiVolScore b) (oiVolScore a)⟩

instance : IsTrans OptionRow scoreGE :=
  ⟨fun _ _ _ h1 h2 => le_trans h2 h1⟩

/-- The full descending stable ranking underlying
`nlargest(5, 'oi_vol_product')` (pandas `keep='first'`): rows sorted by
activity score descending, earlier input rows first among ties. -/
def rankByActivity (rows : List OptionRow) : List OptionRow :=
  rows.insertionSort scoreGE

/-- One row of the returned top-5 table: the code keeps only the columns
`['strike', 'openInterest', 'volume', 'impliedVolatility']`. -/
structure TopRow where
  strike : ℚ
  openInterest : ℚ
  volume : ℚ
  impliedVolatility : ℚ
deriving Repr, DecidableEq

/-- Column selection `[['strike', 'openInterest', 'volume', 'impliedVolatility']]`. -/
def topProj (r : OptionRow) : TopRow :=
  ⟨r.strike, r.openInterest, r.volume, r.impliedVolatility⟩

/-- `df.nlargest(5, 'oi_vol_product')[['strike', 'openInterest',
'volume', 'impliedVolatility']]`: the first five rows of the stable
descending ranking, projected to the four kept columns. -/
def topByActivity (rows : List OptionRow) : List TopRow :=
  ((rankByActivity rows).take 5).map topProj

/-- One raw option row as `calculate_exposure_profiles` sees it (the
NASDAQ path hands the analyzer the JSON-derived frame unnormalized).
The four required base cells are `Option ℚ`, `none` modelling a
null/NaN entry.  `gex`/`dex` model the derived columns the method
assigns: outer `none` means the column is absent from the frame, inner
`none` a NaN entry produced by arithmetic on nulls. -/
structure RawRow where
  strike : Option ℚ
  openInterest : Option ℚ
  delta : Option ℚ
  gamma : Option ℚ
  gex : Option (Option ℚ) := none
  dex : Option (Option ℚ) := none
deriving Repr, DecidableEq

/-- One side of a raw chain: which of the required columns exist in the
frame, plus its rows. -/
structure RawFrame where
  hasStrike : Bool := true
  hasOpenInterest : Bool := true
  hasDelta : Bool := true
  hasGamma : Bool := true
  rows : List RawRow
deriving Repr, DecidableEq

/-- `col in df.columns and not df[col].isnull().all()` for one required
column: the column exists and holds at least one non-null entry (on an
empty frame `isnull().all()` is vacuously true, so the check fails). -/
def colUsable (present : Bool) (entries : List (Option ℚ)) : Bool :=
  present && entries.any (fun e => e.isSome)

/-- `all(col in df.columns and not df[col].isnull().all() for col in
['gamma', 'delta', 'openInterest', 'strike'])` for one side. -/
def greeksUsable (f : RawFrame) : Bool :=
  colUsable f.hasGamma (f.rows.map RawRow.gamma) &&
  colUsable f.hasDelta (f.rows.map RawRow.delta) &&
  colUsable f.hasOpenInterest (f.rows.map RawRow.openInterest) &&
  colUsable f.hasStrike (f.rows.map RawRow.strike)

/-- Element-wise product of two nullable cells; NaN (none) propagates. -/
def mulOpt (a b : Option ℚ) : Option ℚ :=
  match a, b with
  | some x, some y => some (x * y)
  | _, _ => none

/-- `calls_df['gamma'] * calls_df['openInterest'] * 100` for one row. -/
def callGex (r : RawRow) : Option ℚ :=
  (mulOpt r.gamma r.openInterest).map (fun v => v * 100)

/-- `puts_df['gamma'] * puts_df['openInterest'] * 100 * -1` for one row. -/
def putGex (r : RawRow) : Option ℚ :=
  (mulOpt r.gamma r.openInterest).map (fun v => v * 100 * (-1))

/-- `df['delta'] * df['openInterest'] * 100` for one row (same formula
on both sides). -/
def rowDex (r : RawRow) : Option ℚ :=
  (mulOpt r.delta r.openInterest).map (fun v => v * 100)

/-- A pandas sum with the default `skipna=True`: null entries are
skipped, and an all-null (or empty) selection sums to 0. -/
def sumOpt (l : List (Option ℚ)) : ℚ :=
  (l.filterMap id).sum

/-- `df.groupby('strike')[col].sum()` looked up at group key `k` (after
`fillna(0)` on the concatenated profile): the skipna sum of a derived
column over the rows of one side whose strike is `k`, 0 when the side
has no such row. -/
def sideSum (rows : List RawRow) (col : RawRow → Option ℚ) (k : ℚ) : ℚ :=
  sumOpt ((rows.filter (fun r => r.strike = some k)).map col)

/-- The non-null strikes of one side (pandas `groupby` drops null group
keys). -/
def rawStrikeList (f : RawFrame) : List ℚ :=
  f.rows.filterMap RawRow.strike

/-- The index of the concatenated profile: the sorted union of the call
and put group keys (`pd.concat([...], axis=1)` on the two sorted
groupby indexes produces their sorted union). -/
def profileStrikes (calls puts : RawFrame) : List ℚ :=
  ((rawStrikeList calls ++ rawStrikeList puts).dedup).insertionSort (· ≤ ·)

/-- One row of the exposure profile frame: per-side `gex`/`dex` sums at
one strike plus the derived `net_gex`/`net_dex` columns. -/
structure ProfileRow where
  strike : ℚ
  call_gex : ℚ
  call_dex : ℚ
  put_gex : ℚ
  put_dex : ℚ
  net_gex : ℚ
  net_dex : ℚ
deriving Repr, DecidableEq

/-- The profile row at strike `k`:
`profile['net_gex'] = profile['call']['gex'] + profile['put']['gex']`
and `profile['net_dex'] = profile['call']['dex'] + profile['put']['dex']`
on top of the per-side groupby sums (missing side filled with 0). -/
def profileAt (calls puts : RawFrame) (k : ℚ) : ProfileRow :=
  ⟨k,
   sideSum calls.rows callGex k,
   sideSum calls.rows rowDex k,
   sideSum puts.rows putGex k,
   sideSum puts.rows rowDex k,
   sideSum calls.rows callGex k + sideSum puts.rows putGex k,
   sideSum calls.rows rowDex k + sideSum puts.rows rowDex k⟩

/-- The scan behind
`net_gex_cumsum = profile['net_gex'].cumsum();
gamma_flip_point = net_gex_cumsum[net_gex_cumsum > 0].index[0]` with the
`IndexError` fallback to 0: walk the profile in ascending strike order
keeping the running sum of `net_gex`; return the first strike where it
is strictly positive, 0 if it never is. -/
def gammaFlipAux (acc : ℚ) : List ProfileRow → ℚ
  | [] => 0
  | p :: ps =>
    if 0 < acc + p.net_gex then p.strike else gammaFlipAux (acc + p.net_gex) ps

/-- `hvl_strike = profile['net_gex'].abs().idxmax()`: the strike of the
first profile row attaining the maximal absolute net GEX.  The `none`
branch is unreachable on the non-empty profiles this is applied to
(pandas would raise there). -/
def hvlOf (prof : List ProfileRow) : ℚ :=
  match idxmaxFirst (fun p => |p.net_gex|) prof with
  | some p => p.strike
  | none => 0

/-- `df['gex'] = ...; df['dex'] = ...`: the in-place assignment of the
two derived columns on one side, with the side's gex formula. -/
def addExposureCols (g : RawRow → Option ℚ) (f : RawFrame) : RawFrame :=
  { f with rows := f.rows.map (fun r => { r with gex := some (g r), dex := some (rowDex r) }) }

/-- The triple `calculate_exposure_profiles` returns. -/
structure ExposureResult where
  profile : List ProfileRow
  gamma_flip : ℚ
  hvl : ℚ
deriving Repr, DecidableEq

/-- `calculate_exposure_profiles`: if any required column is missing or
entirely null on either side, return the empty frame with both derived
strikes 0 and leave the input frames untouched; otherwise assign the
`gex`/`dex` columns in place on both sides, build the per-strike
profile over the unioned group keys, and derive the gamma-flip and HVL
strikes.  The updated (or untouched) input frames are returned
alongside the result to model the in-place column assignments. -/
def calculate_exposure_profiles (calls puts : RawFrame) :
    ExposureResult × RawFrame × RawFrame :=
  if greeksUsable calls && greeksUsable puts then
    let prof := (profileStrikes calls puts).map (profileAt calls puts)
    (⟨prof, gammaFlipAux 0 prof, hvlOf prof⟩,
     addExposureCols callGex calls, addExposureCols putGex puts)
  else
    (⟨[], 0, 0⟩, calls, puts)

/-- Running total of `net_gex` through profile position `i` (the value
of `profile['net_gex'].cumsum()` at row `i`). -/
def cumNetGex (prof : List ProfileRow) (i : ℕ) : ℚ :=
  ((prof.take (i + 1)).map ProfileRow.net_gex).sum

/-- Concrete calls frame whose `gamma` column is missing. -/
def noGammaCalls : RawFrame :=
  ⟨true, true, true, false, [⟨some 100, some 10, some (1/2), none, none, none⟩]⟩

/-- Concrete puts frame with full greek data. -/
def demoRawPuts : RawFrame :=
  ⟨true, true, true, true,
    [⟨some 90, some 5, some (-(1/2)), some (1/10), none, none⟩,
     ⟨some 110, some 100, some (-(1/4)), some (1/20), none, none⟩]⟩

/-- Concrete calls frame whose greeks are all exactly 0 (usable: 0 is
not null). -/
def zeroGreekCalls : RawFrame :=
  ⟨true, true, true, true,
    [⟨some 90, some 100, some 0, some 0, none, none⟩,
     ⟨some 110, some 10, some 0, some 0, none, none⟩]⟩

/-- Concrete puts frame whose greeks are all exactly 0. -/
def zeroGreekPuts : RawFrame :=
  ⟨true, true, true, true,
    [⟨some 90, some 5, some 0, some 0, none, none⟩,
     ⟨some 110, some 100, some 0, some 0, none, none⟩]⟩

/-- A row with no null cell in the four required columns (the
normalized-chain invariant of the spec's data model). -/
def noNullRow (r : RawRow) : Bool :=
  r.strike.isSome && r.openInterest.isSome && r.delta.isSome && r.gamma.isSome

/-- The overview result dictionary: totals, ratios (kept as rationals;
the code formats them to two decimals for display), top-5 tables and
wall strikes. -/
structure OverviewResult where
  total_call_oi : ℚ
  total_put_oi : ℚ
  total_call_vol : ℚ
  total_put_vol : ℚ
  pcrOI : ℚ
  pcrVol : ℚ
  top_calls : List TopRow
  top_puts : List TopRow
  callWall : Option ℚ
  putWall : Option ℚ
deriving Repr, DecidableEq

/-- `df['oi_vol_product'] = df['openInterest'] * df['volume']`: the
in-place assignment of the activity-score column on one side. -/
def addOiVolColumn (rows : List OptionRow) : List OptionRow :=
  rows.map (fun r => { r with oi_vol_product := some (oiVolScore r) })

/-- `analyze_options_overview`: totals, put/call ratios, wall strikes
from the per-strike open-interest profile, and the two top-5 tables.
The updated input frames (with the freshly assigned `oi_vol_product`
column) are returned alongside the result to model the in-place column
assignments. -/
def analyze_options_overview (calls puts : List OptionRow) :
    OverviewResult × List OptionRow × List OptionRow :=
  (⟨total_oi calls, total_oi puts, total_vol calls, total_vol puts,
    pcr_oi calls puts, pcr_vol calls puts,
    topByActivity calls, topByActivity puts,
    call_wall calls puts, put_wall calls puts⟩,
   addOiVolColumn calls, addOiVolColumn puts)

/-- The six source columns of a normalized row (everything except the
derived `oi_vol_product` column). -/
def baseOf (r : OptionRow) : ℚ × ℚ × ℚ × ℚ × ℚ × ℚ :=
  (r.strike, r.openInterest, r.volume, r.impliedVolatility, r.delta, r.gamma)

/-- The four source columns of a raw row (everything except the derived
`gex`/`dex` columns). -/
def rawBaseOf (r : RawRow) : Option ℚ × Option ℚ × Option ℚ × Option ℚ :=
  (r.strike, r.openInterest, r.delta, r.gamma)

theorem argminFirst_eq_none {α : Type} (f : α → ℚ) (l : List α) :
    argminFirst f l = none ↔ l = [] := by
  cases l with
  | nil => simp [argminFirst]
  | cons x xs =>
    simp only [argminFirst]
    cases argminFirst f xs with
    | none => simp
    | some y =>
      by_cases h : f x ≤ f y <;> simp [h]

theorem argminFirst_mem {α : Type} (f : α → ℚ) (l : List α) (m : α)
    (h : argminFirst f l = some m) : m ∈ l := by
  induction l generalizing m with
  | nil => simp [argminFirst] at h
  | cons x xs ih =>
    simp only [argminFirst] at h
    cases hxs : argminFirst f xs with
    | none => rw [hxs] at h; simp at h; simp [h]
    | some y =>
      rw [hxs] at h
      by_cases hle : f x ≤ f y
      · simp [hle] at h; simp [h]
      · simp [hle] at h
        exact List.mem_cons_of_mem x (h ▸ ih y hxs)

theorem argminFirst_le {α : Type} (f : α → ℚ) (l : List α) (m : α)
    (h : argminFirst f l = some m) : ∀ x ∈ l, f m ≤ f x := by
  induction l generalizing m with
  | nil => simp [argminFirst] at h
  | cons a t ih =>
    intro x hx
    simp only [argminFirst] at h
    cases ht : argminFirst f t with
    | none =>
      rw [ht] at h
      simp at h
      rcases (argminFirst_eq_none f t).mp ht with rfl
      simp at hx
      simp [h, hx]
    | some y =>
      rw [ht] at h
      by_cases hle : f a ≤ f y
      · simp [hle] at h
        subst h
        rcases List.mem_cons.mp hx with rfl | hxt
        · exact le_refl _
        · exact le_trans hle (ih y ht x hxt)
      · simp [hle] at h
        subst h
        rcases List.mem_cons.mp hx with rfl | hxt
        · exact le_of_lt (lt_of_not_le hle)
        · exact ih _ ht x hxt

theorem argminFirst_first {α : Type} [Preorder α] (f : α → ℚ) (l : List α)
    (hs : l.Sorted (· ≤ ·)) (m : α) (h : argminFirst f l = some m) :
    ∀ x ∈ l, f x = f m → m ≤ x := by
  induction l generalizing m with
  | nil => simp [argminFirst] at h
  | cons a t ih =>
    intro x hx hfx
    simp only [argminFirst] at h
    cases ht : argminFirst f t with
    | none =>
      rw [ht] at h
      simp at h
      rcases (argminFirst_eq_none f t).mp ht with rfl
      simp at hx
      subst hx
      subst h
      exact le_refl _
    | some y =>
      rw [ht] at h
      by_cases hle : f a ≤ f y
      · simp [hle] at h
        subst h
        rcases List.mem_cons.mp hx with rfl | hxt
        · exact le_refl _
        · exact (List.sorted_cons.mp hs).1 x hxt
      · simp [hle] at h
        subst h
        rcases List.mem_cons.mp hx with rfl | hxt
        · exact absurd (hfx ▸ le_refl (f x)) hle
        · exact ih (List.sorted_cons.mp hs).2 _ ht x hxt hfx

theorem sortedStrikes_sorted (calls puts : List OptionRow) :
    (sortedStrikes calls puts).Sorted (· ≤ ·) :=
  List.sorted_insertionSort _ _

theorem mem_sortedStrikes (calls puts : List OptionRow) (k : ℚ) :
    k ∈ sortedStrikes calls puts ↔
      (∃ r ∈ calls, r.strike = k) ∨ (∃ r ∈ puts, r.strike = k) := by
  simp only [sortedStrikes, List.mem_insertionSort, List.mem_dedup,
    List.mem_append, strikeValues, List.mem_map]

theorem sortedStrikes_ne_nil (calls puts : List OptionRow)
    (h : calls ≠ [] ∨ puts ≠ []) : sortedStrikes calls puts ≠ [] := by
  rcases h with h | h
  · rcases List.exists_mem_of_ne_nil calls h with ⟨r, hr⟩
    intro hnil
    have : r.strike ∈ sortedStrikes calls puts :=
      (mem_sortedStrikes calls puts r.strike).mpr (Or.inl ⟨r, hr, rfl⟩)
    simp [hnil] at this
  · rcases List.exists_mem_of_ne_nil puts h with ⟨r, hr⟩
    intro hnil
    have : r.strike ∈ sortedStrikes calls puts :=
      (mem_sortedStrikes calls puts r.strike).mpr (Or.inr ⟨r, hr, rfl⟩)
    simp [hnil] at this

/-- Claim C1: for every chain whose candidate strike set (the sorted
union of call and put strikes) is non-empty, `calculate_max_pain`
returns a member `m` of the candidate set whose total writer loss
(`call_loss + put_loss`) is less than or equal to the total loss at
every other candidate, and on ties the first candidate in ascending
strike order (the smallest tied strike) wins. -/
theorem max_pain_spec (calls puts : List OptionRow)
    (h : calls ≠ [] ∨ puts ≠ []) :
    ∃ m, calculate_max_pain calls puts = some m ∧
      m ∈ sortedStrikes calls puts ∧
      (∀ P ∈ sortedStrikes calls puts,
        total_loss calls puts m ≤ total_loss calls puts P) ∧
      (∀ P ∈ sortedStrikes calls puts,
        total_loss calls puts P = total_loss calls puts m → m ≤ P) := by
  have hne := sortedStrikes_ne_nil calls puts h
  cases hm : calculate_max_pain calls puts with
  | none =>
    exact absurd ((argminFirst_eq_none _ _).mp hm) hne
  | some m =>
    exact ⟨m, rfl, argminFirst_mem _ _ m hm, argminFirst_le _ _ m hm,
      argminFirst_first _ _ (sortedStrikes_sorted calls puts) m hm⟩

/-- Witness for C1 at the concrete two-strike chain above. -/
theorem max_pain_spec_witness :
    ∃ m, calculate_max_pain demoCalls demoPuts = some m ∧
      m ∈ sortedStrikes demoCalls demoPuts ∧
      (∀ P ∈ sortedStrikes demoCalls demoPuts,
        total_loss demoCalls demoPuts m ≤ total_loss demoCalls demoPuts P) ∧
      (∀ P ∈ sortedStrikes demoCalls demoPuts,
        total_loss demoCalls demoPuts P = total_loss demoCalls demoPuts m →
          m ≤ P) :=
  max_pain_spec demoCalls demoPuts (Or.inl (by simp [demoCalls]))

/-- Claim C5: the claim says `calculate_max_pain` returns 0 on an empty
candidate strike set.  In the source, `np.argmin(total_losses)` is
evaluated on the empty loss list BEFORE the `return strikes[...] if
strikes else 0` line, and `np.argmin` of an empty sequence raises
`ValueError`, so the `else 0` fallback is dead code and the function
raises instead of returning 0.  In the model the raised exception is
`none`; this theorem evaluates the embedded code at the failing input
(both sides empty, hence an empty candidate set). -/
theorem max_pain_empty_raises : calculate_max_pain [] [] = none := by
  rfl

theorem idxmaxFirst_eq_none {α : Type} (f : α → ℚ) (l : List α) :
    idxmaxFirst f l = none ↔ l = [] := by
  cases l with
  | nil => simp [idxmaxFirst]
  | cons x xs =>
    simp only [idxmaxFirst]
    cases idxmaxFirst f xs with
    | none => simp
    | some y =>
      by_cases h : f y ≤ f x <;> simp [h]

theorem idxmaxFirst_mem {α : Type} (f : α → ℚ) (l : List α) (m : α)
    (h : idxmaxFirst f l = some m) : m ∈ l := by
  induction l generalizing m with
  | nil => simp [idxmaxFirst] at h
  | cons x xs ih =>
    simp only [idxmaxFirst] at h
    cases hxs : idxmaxFirst f xs with
    | none => rw [hxs] at h; simp at h; simp [h]
    | some y =>
      rw [hxs] at h
      by_cases hle : f y ≤ f x
      · simp [hle] at h; simp [h]
      · simp [hle] at h
        exact List.mem_cons_of_mem x (h ▸ ih y hxs)

theorem idxmaxFirst_ge {α : Type} (f : α → ℚ) (l : List α) (m : α)
    (h : idxmaxFirst f l = some m) : ∀ x ∈ l, f x ≤ f m := by
  induction l generalizing m with
  | nil => simp [idxmaxFirst] at h
  | cons a t ih =>
    intro x hx
    simp only [idxmaxFirst] at h
    cases ht : idxmaxFirst f t with
    | none =>
      rw [ht] at h
      simp at h
      rcases (idxmaxFirst_eq_none f t).mp ht with rfl
      simp at hx
      simp [h, hx]
    | some y =>
      rw [ht] at h
      by_cases hle : f y ≤ f a
      · simp [hle] at h
        subst h
        rcases List.mem_cons.mp hx with rfl | hxt
        · exact le_refl _
        · exact le_trans (ih y ht x hxt) hle
      · simp [hle] at h
        subst h
        rcases List.mem_cons.mp hx with rfl | hxt
        · exact le_of_lt (lt_of_not_le hle)
        · exact ih _ ht x hxt

theorem idxmaxFirst_first {α : Type} [Preorder α] (f : α → ℚ) (l : List α)
    (hs : l.Sorted (· ≤ ·)) (m : α) (h : idxmaxFirst f l = some m) :
    ∀ x ∈ l, f x = f m → m ≤ x := by
  induction l generalizing m with
  | nil => simp [idxmaxFirst] at h
  | cons a t ih =>
    intro x hx hfx
    simp only [idxmaxFirst] at h
    cases ht : idxmaxFirst f t with
    | none =>
      rw [ht] at h
      simp at h
      rcases (idxmaxFirst_eq_none f t).mp ht with rfl
      simp at hx
      subst hx
      subst h
      exact le_refl _
    | some y =>
      rw [ht] at h
      by_cases hle : f y ≤ f a
      · simp [hle] at h
        subst h
        rcases List.mem_cons.mp hx with rfl | hxt
        · exact le_refl _
        · exact (List.sorted_cons.mp hs).1 x hxt
      · simp [hle] at h
        subst h
        rcases List.mem_cons.mp hx with rfl | hxt
        · exact absurd (le_of_eq hfx.symm) hle
        · exact ih (List.sorted_cons.mp hs).2 _ ht x hxt hfx

theorem sumOIAt_of_absent (rows : List OptionRow) (k : ℚ)
    (h : ∀ r ∈ rows, r.strike ≠ k) : sumOIAt rows k = 0 := by
  have : rows.filter (fun r => r.strike = k) = [] := by
    rw [List.filter_eq_nil_iff]
    intro r hr
    simpa using h r hr
  simp [sumOIAt, this]

/-- Claim C6: for every chain with at least one strike, the call wall is
the strike maximizing the per-strike summed call open interest and the
put wall the strike maximizing the per-strike summed put open interest,
both taken over the union of call and put strikes with a side absent at
a strike contributing 0; both walls are members of the unioned strike
set, and when every per-strike open-interest sum on a side is 0 that
side's wall is the smallest strike of the union (first in ascending
order, the general first-of-the-ties `idxmax` rule). -/
theorem walls_spec (calls puts : List OptionRow)
    (h : calls ≠ [] ∨ puts ≠ []) :
    ∃ cw pw, call_wall calls puts = some cw ∧ put_wall calls puts = some pw ∧
      cw ∈ sortedStrikes calls puts ∧ pw ∈ sortedStrikes calls puts ∧
      (∀ k ∈ sortedStrikes calls puts, sumOIAt calls k ≤ sumOIAt calls cw) ∧
      (∀ k ∈ sortedStrikes calls puts, sumOIAt puts k ≤ sumOIAt puts pw) ∧
      (∀ k ∈ sortedStrikes calls puts,
        (∀ r ∈ calls, r.strike ≠ k) → sumOIAt calls k = 0) ∧
      ((∀ k ∈ sortedStrikes calls puts, sumOIAt calls k = 0) →
        ∀ k ∈ sortedStrikes calls puts, cw ≤ k) ∧
      ((∀ k ∈ sortedStrikes calls puts, sumOIAt puts k = 0) →
        ∀ k ∈ sortedStrikes calls puts, pw ≤ k) := by
  have hne := sortedStrikes_ne_nil calls puts h
  cases hcw : call_wall calls puts with
  | none => exact absurd ((idxmaxFirst_eq_none _ _).mp hcw) hne
  | some cw =>
    cases hpw : put_wall calls puts with
    | none => exact absurd ((idxmaxFirst_eq_none _ _).mp hpw) hne
    | some pw =>
      have hcmem := idxmaxFirst_mem _ _ cw hcw
      have hpmem := idxmaxFirst_mem _ _ pw hpw
      refine ⟨cw, pw, rfl, rfl, hcmem, hpmem,
        idxmaxFirst_ge _ _ cw hcw, idxmaxFirst_ge _ _ pw hpw,
        fun k _ hk => sumOIAt_of_absent calls k hk, ?_, ?_⟩
      · intro hz k hk
        exact idxmaxFirst_first _ _ (sortedStrikes_sorted calls puts) cw hcw
          k hk ((hz k hk).trans (hz cw hcmem).symm)
      · intro hz k hk
        exact idxmaxFirst_first _ _ (sortedStrikes_sorted calls puts) pw hpw
          k hk ((hz k hk).trans (hz pw hpmem).symm)

/-- Witness for C6 at the concrete two-strike chain. -/
theorem walls_spec_witness :
    ∃ cw pw, call_wall demoCalls demoPuts = some cw ∧
      put_wall demoCalls demoPuts = some pw ∧
      cw ∈ sortedStrikes demoCalls demoPuts ∧
      pw ∈ sortedStrikes demoCalls demoPuts ∧
      (∀ k ∈ sortedStrikes demoCalls demoPuts,
        sumOIAt demoCalls k ≤ sumOIAt demoCalls cw) ∧
      (∀ k ∈ sortedStrikes demoCalls demoPuts,
        sumOIAt demoPuts k ≤ sumOIAt demoPuts pw) ∧
      (∀ k ∈ sortedStrikes demoCalls demoPuts,
        (∀ r ∈ demoCalls, r.strike ≠ k) → sumOIAt demoCalls k = 0) ∧
      ((∀ k ∈ sortedStrikes demoCalls demoPuts, sumOIAt demoCalls k = 0) →
        ∀ k ∈ sortedStrikes demoCalls demoPuts, cw ≤ k) ∧
      ((∀ k ∈ sortedStrikes demoCalls demoPuts, sumOIAt demoPuts k = 0) →
        ∀ k ∈ sortedStrikes demoCalls demoPuts, pw ≤ k) :=
  walls_spec demoCalls demoPuts (Or.inl (by simp [demoCalls]))

/-- Claim C8: on a chain whose rows carry non-negative open interest and
volume (the normalized-chain invariant), `pcr_oi` equals
`total_put_oi / total_call_oi` when the call total is positive and 0
when it is 0, `pcr_vol` symmetrically over volumes, and both ratios are
non-negative rationals (in particular finite, never NaN or infinity:
the division-by-zero branch is never taken). -/
theorem pcr_spec (calls puts : List OptionRow)
    (_hc : ∀ r ∈ calls, 0 ≤ r.openInterest ∧ 0 ≤ r.volume)
    (hp : ∀ r ∈ puts, 0 ≤ r.openInterest ∧ 0 ≤ r.volume) :
    (0 < total_oi calls → pcr_oi calls puts = total_oi puts / total_oi calls) ∧
    (total_oi calls = 0 → pcr_oi calls puts = 0) ∧
    (0 < total_vol calls → pcr_vol calls puts = total_vol puts / total_vol calls) ∧
    (total_vol calls = 0 → pcr_vol calls puts = 0) ∧
    0 ≤ pcr_oi calls puts ∧ 0 ≤ pcr_vol calls puts := by
  have hoi : 0 ≤ total_oi puts := by
    apply List.sum_nonneg
    intro x hx
    rcases List.mem_map.mp hx with ⟨r, hr, rfl⟩
    exact (hp r hr).1
  have hvol : 0 ≤ total_vol puts := by
    apply List.sum_nonneg
    intro x hx
    rcases List.mem_map.mp hx with ⟨r, hr, rfl⟩
    exact (hp r hr).2
  refine ⟨fun h => by simp [pcr_oi, h], fun h => by simp [pcr_oi, h],
    fun h => by simp [pcr_vol, h], fun h => by simp [pcr_vol, h], ?_, ?_⟩
  · unfold pcr_oi
    split
    · exact div_nonneg hoi (le_of_lt (by assumption))
    · exact le_refl 0
  · unfold pcr_vol
    split
    · exact div_nonneg hvol (le_of_lt (by assumption))
    · exact le_refl 0

/-- Witness for C8 at the concrete two-strike chain. -/
theorem pcr_spec_witness :
    (0 < total_oi demoCalls →
      pcr_oi demoCalls demoPuts = total_oi demoPuts / total_oi demoCalls) ∧
    (total_oi demoCalls = 0 → pcr_oi demoCalls demoPuts = 0) ∧
    (0 < total_vol demoCalls →
      pcr_vol demoCalls demoPuts = total_vol demoPuts / total_vol demoCalls) ∧
    (total_vol demoCalls = 0 → pcr_vol demoCalls demoPuts = 0) ∧
    0 ≤ pcr_oi demoCalls demoPuts ∧ 0 ≤ pcr_vol demoCalls demoPuts :=
  pcr_spec demoCalls demoPuts (by decide) (by decide)

/-- Claim C7 counterexample: the claim says score ties are broken by
strike ascending, but `nlargest(..., keep='first')` breaks ties by
original row position.  With a strike-110 row (OI 1, volume 6) listed
before a strike-100 row (OI 2, volume 3), both scoring 6, the top list
ranks strike 110 first even though 100 < 110. -/
theorem top5_tie_strike_refuted :
    oiVolScore ⟨110, 1, 6, 0, 0, 0, none⟩ =
      oiVolScore ⟨100, 2, 3, 0, 0, 0, none⟩ ∧
    (topByActivity [⟨110, 1, 6, 0, 0, 0, none⟩,
        ⟨100, 2, 3, 0, 0, 0, none⟩]).map TopRow.strike = [110, 100] := by
  constructor
  · norm_num [oiVolScore]
  · norm_num [topByActivity, rankByActivity, List.insertionSort,
      List.orderedInsert, scoreGE, oiVolScore, topProj]

/-- Claim C7 (amended): the top-5 per side are the first five rows of a
deterministic ranking that is a permutation of the side's rows sorted by
activity score (`openInterest * volume`) descending, every kept row
scoring at least every dropped row; ties are broken by original row
position (earlier input row first, pandas `keep='first'`), not by
strike ascending — the two coincide when the input rows arrive sorted
by strike ascending. -/
theorem top5_amended (rows : List OptionRow) :
    topByActivity rows = ((rankByActivity rows).take 5).map topProj ∧
    (rankByActivity rows).Perm rows ∧
    (rankByActivity rows).Sorted scoreGE ∧
    (∀ a b, oiVolScore a = oiVolScore b →
      [a, b].Sublist rows → [a, b].Sublist (rankByActivity rows)) ∧
    (∀ a ∈ (rankByActivity rows).take 5, ∀ b ∈ (rankByActivity rows).drop 5,
      oiVolScore b ≤ oiVolScore a) := by
  refine ⟨rfl, List.perm_insertionSort _ _, List.sorted_insertionSort _ _,
    ?_, ?_⟩
  · intro a b hscore hsub
    exact List.pair_sublist_insertionSort (le_of_eq hscore.symm) hsub
  · intro a ha b hb
    exact (List.sorted_insertionSort scoreGE rows).rel_of_mem_take_of_mem_drop
      ha hb

/-- Witness for the amended C7 at the concrete two-strike chain. -/
theorem top5_amended_witness :
    topByActivity demoCalls = ((rankByActivity demoCalls).take 5).map topProj ∧
    (rankByActivity demoCalls).Perm demoCalls ∧
    (rankByActivity demoCalls).Sorted scoreGE ∧
    (∀ a b, oiVolScore a = oiVolScore b →
      [a, b].Sublist demoCalls → [a, b].Sublist (rankByActivity demoCalls)) ∧
    (∀ a ∈ (rankByActivity demoCalls).take 5,
      ∀ b ∈ (rankByActivity demoCalls).drop 5,
        oiVolScore b ≤ oiVolScore a) :=
  top5_amended demoCalls

theorem profileStrikes_sorted (calls puts : RawFrame) :
    (profileStrikes calls puts).Sorted (· ≤ ·) :=
  List.sorted_insertionSort _ _

theorem profileStrikes_nodup (calls puts : RawFrame) :
    (profileStrikes calls puts).Nodup :=
  ((List.perm_insertionSort _ _).symm).nodup (List.nodup_dedup _)

theorem mem_profileStrikes (calls puts : RawFrame) (k : ℚ) :
    k ∈ profileStrikes calls puts ↔
      (∃ r ∈ calls.rows, r.strike = some k) ∨
      (∃ r ∈ puts.rows, r.strike = some k) := by
  simp only [profileStrikes, rawStrikeList, List.mem_insertionSort,
    List.mem_dedup, List.mem_append, List.mem_filterMap]

theorem usable_strike_exists (f : RawFrame) (h : greeksUsable f = true) :
    ∃ r ∈ f.rows, (RawRow.strike r).isSome = true := by
  simp only [greeksUsable, colUsable, Bool.and_eq_true, List.any_eq_true,
    List.mem_map] at h
  rcases h.2.2 with ⟨_, ⟨⟨r, hr, rfl⟩, hs⟩⟩
  exact ⟨r, hr, hs⟩

/-- Claim C4: whenever the calls side or the puts side lacks usable
greek data — its `gamma` or `delta` column is absent or entirely null —
`calculate_exposure_profiles` returns the distinct unavailable result
(an empty profile frame with gamma-flip 0 and HVL 0) and leaves the
input frames untouched, instead of raising an error. -/
theorem exposure_unavailable (calls puts : RawFrame)
    (h : colUsable calls.hasGamma (calls.rows.map RawRow.gamma) = false ∨
      colUsable calls.hasDelta (calls.rows.map RawRow.delta) = false ∨
      colUsable puts.hasGamma (puts.rows.map RawRow.gamma) = false ∨
      colUsable puts.hasDelta (puts.rows.map RawRow.delta) = false) :
    calculate_exposure_profiles calls puts = (⟨[], 0, 0⟩, calls, puts) := by
  have hfalse : (greeksUsable calls && greeksUsable puts) = false := by
    rcases h with h | h | h | h <;> simp [greeksUsable, h]
  simp [calculate_exposure_profiles, hfalse]

/-- Witness for C4: a calls frame without a `gamma` column yields the
unavailable triple. -/
theorem exposure_unavailable_witness :
    calculate_exposure_profiles noGammaCalls demoRawPuts =
      (⟨[], 0, 0⟩, noGammaCalls, demoRawPuts) :=
  exposure_unavailable noGammaCalls demoRawPuts (Or.inl (by decide))

/-- Claim C10: as long as every required column (`gamma`, `delta`,
`openInterest`, `strike`) exists and holds at least one non-null entry
on both sides — i.e. `greeksUsable` passes, which all-zero greek values
do pass, since 0 is not null — `calculate_exposure_profiles` returns a
full profile: one row per strike of the unioned group-key set, in
strictly ascending strike order, and in particular a non-empty frame.
The unavailable result is triggered only by a missing or entirely-null
required column, never by all-zero greek values. -/
theorem exposure_full_profile (calls puts : RawFrame)
    (hc : greeksUsable calls = true) (hp : greeksUsable puts = true) :
    ((calculate_exposure_profiles calls puts).1.profile).map ProfileRow.strike
      = profileStrikes calls puts ∧
    (calculate_exposure_profiles calls puts).1.profile ≠ [] ∧
    (((calculate_exposure_profiles calls puts).1.profile).map
      ProfileRow.strike).Sorted (· < ·) ∧
    (∀ k, k ∈ profileStrikes calls puts ↔
      (∃ r ∈ calls.rows, r.strike = some k) ∨
      (∃ r ∈ puts.rows, r.strike = some k)) := by
  have hcomp : (ProfileRow.strike ∘ profileAt calls puts) = id :=
    funext fun k => rfl
  have hmap : ((calculate_exposure_profiles calls puts).1.profile).map
      ProfileRow.strike = profileStrikes calls puts := by
    simp [calculate_exposure_profiles, hc, hp, List.map_map, hcomp]
  refine ⟨hmap, ?_, ?_, mem_profileStrikes calls puts⟩
  · rcases usable_strike_exists calls hc with ⟨r, hr, hs⟩
    rcases Option.isSome_iff_exists.mp hs with ⟨k, hk⟩
    intro hnil
    have hmem : k ∈ profileStrikes calls puts :=
      (mem_profileStrikes calls puts k).mpr (Or.inl ⟨r, hr, hk⟩)
    rw [← hmap, hnil] at hmem
    simp at hmem
  · rw [hmap]
    exact (profileStrikes_sorted calls puts).lt_of_le
      (profileStrikes_nodup calls puts)

/-- Witness for C10 at a chain whose greeks are all exactly 0: the
profile is still fully computed. -/
theorem exposure_full_profile_witness :
    ((calculate_exposure_profiles zeroGreekCalls zeroGreekPuts).1.profile).map
      ProfileRow.strike = profileStrikes zeroGreekCalls zeroGreekPuts ∧
    (calculate_exposure_profiles zeroGreekCalls zeroGreekPuts).1.profile ≠ [] ∧
    (((calculate_exposure_profiles zeroGreekCalls zeroGreekPuts).1.profile).map
      ProfileRow.strike).Sorted (· < ·) ∧
    (∀ k, k ∈ profileStrikes zeroGreekCalls zeroGreekPuts ↔
      (∃ r ∈ zeroGreekCalls.rows, r.strike = some k) ∨
      (∃ r ∈ zeroGreekPuts.rows, r.strike = some k)) :=
  exposure_full_profile zeroGreekCalls zeroGreekPuts (by decide) (by decide)

theorem gammaFlipAux_spec (l : List ProfileRow) (acc : ℚ) :
    ((∀ i < l.length, acc + cumNetGex l i ≤ 0) ∧ gammaFlipAux acc l = 0) ∨
    (∃ i, ∃ h : i < l.length, 0 < acc + cumNetGex l i ∧
      gammaFlipAux acc l = (l.get ⟨i, h⟩).strike ∧
      ∀ j < i, acc + cumNetGex l j ≤ 0) := by
  induction l generalizing acc with
  | nil =>
    left
    exact ⟨fun i hi => absurd hi (Nat.not_lt_zero i), rfl⟩
  | cons p ps ih =>
    have hcum0 : cumNetGex (p :: ps) 0 = p.net_gex := by
      simp [cumNetGex]
    have hcumS : ∀ i, cumNetGex (p :: ps) (i + 1) =
        p.net_gex + cumNetGex ps i := by
      intro i
      simp [cumNetGex, List.take_succ_cons]
    by_cases hpos : 0 < acc + p.net_gex
    · right
      refine ⟨0, Nat.succ_pos _, ?_, ?_, ?_⟩
      · rw [hcum0]
        exact hpos
      · simp [gammaFlipAux, hpos]
      · intro j hj
        exact absurd hj (Nat.not_lt_zero j)
    · have hval : gammaFlipAux acc (p :: ps) =
          gammaFlipAux (acc + p.net_gex) ps := by
        simp [gammaFlipAux, hpos]
      rcases ih (acc + p.net_gex) with ⟨hall, h0⟩ | ⟨i, hi, hip, hiv, hprev⟩
      · left
        refine ⟨?_, by rw [hval, h0]⟩
        intro i hilt
        cases i with
        | zero =>
          rw [hcum0]
          exact le_of_not_lt hpos
        | succ n =>
          rw [hcumS n, ← add_assoc]
          exact hall n (Nat.lt_of_succ_lt_succ hilt)
      · right
        refine ⟨i + 1, Nat.succ_lt_succ hi, ?_, ?_, ?_⟩
        · rw [hcumS i, ← add_assoc]
          exact hip
        · rw [hval, hiv]
          rfl
        · intro j hj
          cases j with
          | zero =>
            rw [hcum0]
            exact le_of_not_lt hpos
          | succ n =>
            rw [hcumS n, ← add_assoc]
            exact hprev n (Nat.lt_of_succ_lt_succ hj)

/-- Claim C2: for every chain with usable greek data, the gamma-flip
strike is the strike of the first profile row (ascending strike order)
at which the running cumulative sum of per-strike `net_gex` is strictly
positive, every earlier cumulative value being ≤ 0; when the cumulative
sum is never strictly positive the returned gamma-flip value is 0. -/
theorem gamma_flip_spec (calls puts : RawFrame)
    (hc : greeksUsable calls = true) (hp : greeksUsable puts = true) :
    ((∀ i < ((calculate_exposure_profiles calls puts).1.profile).length,
        cumNetGex ((calculate_exposure_profiles calls puts).1.profile) i ≤ 0) ∧
      (calculate_exposure_profiles calls puts).1.gamma_flip = 0) ∨
    (∃ i, ∃ h : i < ((calculate_exposure_profiles calls puts).1.profile).length,
      0 < cumNetGex ((calculate_exposure_profiles calls puts).1.profile) i ∧
      (calculate_exposure_profiles calls puts).1.gamma_flip =
        (((calculate_exposure_profiles calls puts).1.profile).get ⟨i, h⟩).strike ∧
      ∀ j < i,
        cumNetGex ((calculate_exposure_profiles calls puts).1.profile) j ≤ 0) := by
  have hgf : (calculate_exposure_profiles calls puts).1.gamma_flip =
      gammaFlipAux 0 ((calculate_exposure_profiles calls puts).1.profile) := by
    simp [calculate_exposure_profiles, hc, hp]
  rcases gammaFlipAux_spec ((calculate_exposure_profiles calls puts).1.profile) 0
    with ⟨hall, h0⟩ | ⟨i, hi, hip, hiv, hprev⟩
  · left
    exact ⟨fun i hi => by simpa using hall i hi, by rw [hgf, h0]⟩
  · right
    exact ⟨i, hi, by simpa using hip, by rw [hgf, hiv],
      fun j hj => by simpa using hprev j hj⟩

/-- Witness for C2 at the all-zero-greeks chain. -/
theorem gamma_flip_spec_witness :
    ((∀ i < ((calculate_exposure_profiles zeroGreekCalls zeroGreekPuts).1.profile).length,
        cumNetGex ((calculate_exposure_profiles zeroGreekCalls zeroGreekPuts).1.profile) i ≤ 0) ∧
      (calculate_exposure_profiles zeroGreekCalls zeroGreekPuts).1.gamma_flip = 0) ∨
    (∃ i, ∃ h : i < ((calculate_exposure_profiles zeroGreekCalls zeroGreekPuts).1.profile).length,
      0 < cumNetGex ((calculate_exposure_profiles zeroGreekCalls zeroGreekPuts).1.profile) i ∧
      (calculate_exposure_profiles zeroGreekCalls zeroGreekPuts).1.gamma_flip =
        (((calculate_exposure_profiles zeroGreekCalls zeroGreekPuts).1.profile).get ⟨i, h⟩).strike ∧
      ∀ j < i,
        cumNetGex ((calculate_exposure_profiles zeroGreekCalls zeroGreekPuts).1.profile) j ≤ 0) :=
  gamma_flip_spec zeroGreekCalls zeroGreekPuts (by decide) (by decide)

theorem callGex_of_noNull (r : RawRow) (h : noNullRow r = true) :
    callGex r = some (r.gamma.getD 0 * r.openInterest.getD 0 * 100) := by
  simp only [noNullRow, Bool.and_eq_true] at h
  rcases Option.isSome_iff_exists.mp h.2 with ⟨g, hg⟩
  rcases Option.isSome_iff_exists.mp h.1.1.2 with ⟨oi, hoi⟩
  simp [callGex, mulOpt, hg, hoi]

theorem putGex_of_noNull (r : RawRow) (h : noNullRow r = true) :
    putGex r = some (r.gamma.getD 0 * r.openInterest.getD 0 * 100 * (-1)) := by
  simp only [noNullRow, Bool.and_eq_true] at h
  rcases Option.isSome_iff_exists.mp h.2 with ⟨g, hg⟩
  rcases Option.isSome_iff_exists.mp h.1.1.2 with ⟨oi, hoi⟩
  simp [putGex, mulOpt, hg, hoi]

theorem rowDex_of_noNull (r : RawRow) (h : noNullRow r = true) :
    rowDex r = some (r.delta.getD 0 * r.openInterest.getD 0 * 100) := by
  simp only [noNullRow, Bool.and_eq_true] at h
  rcases Option.isSome_iff_exists.mp h.1.2 with ⟨d, hd⟩
  rcases Option.isSome_iff_exists.mp h.1.1.2 with ⟨oi, hoi⟩
  simp [rowDex, mulOpt, hd, hoi]

theorem sumOpt_map_eq {α : Type} (l : List α) (f : α → Option ℚ) (g : α → ℚ)
    (h : ∀ r ∈ l, f r = some (g r)) :
    sumOpt (l.map f) = (l.map g).sum := by
  induction l with
  | nil => rfl
  | cons a t ih =>
    have ha := h a (List.mem_cons_self a t)
    have ht := ih (fun r hr => h r (List.mem_cons_of_mem a hr))
    simp only [List.map_cons, ha]
    unfold sumOpt
    rw [show List.filterMap id (some (g a) :: List.map f t) =
      g a :: List.filterMap id (List.map f t) from rfl]
    rw [List.sum_cons]
    unfold sumOpt at ht
    rw [ht, List.sum_cons]

theorem sideSum_callGex (rows : List RawRow) (k : ℚ)
    (h : ∀ r ∈ rows, noNullRow r = true) :
    sideSum rows callGex k =
      ((rows.filter (fun r => r.strike = some k)).map
        (fun r => r.gamma.getD 0 * r.openInterest.getD 0 * 100)).sum := by
  apply sumOpt_map_eq
  intro r hr
  exact callGex_of_noNull r (h r (List.mem_of_mem_filter hr))

theorem sideSum_putGex (rows : List RawRow) (k : ℚ)
    (h : ∀ r ∈ rows, noNullRow r = true) :
    sideSum rows putGex k =
      -1 * ((rows.filter (fun r => r.strike = some k)).map
        (fun r => r.gamma.getD 0 * r.openInterest.getD 0 * 100)).sum := by
  have h1 : sideSum rows putGex k =
      ((rows.filter (fun r => r.strike = some k)).map
        (fun r => r.gamma.getD 0 * r.openInterest.getD 0 * 100 * (-1))).sum := by
    apply sumOpt_map_eq
    intro r hr
    exact putGex_of_noNull r (h r (List.mem_of_mem_filter hr))
  rw [h1, List.sum_map_mul_right]
  ring

theorem sideSum_rowDex (rows : List RawRow) (k : ℚ)
    (h : ∀ r ∈ rows, noNullRow r = true) :
    sideSum rows rowDex k =
      ((rows.filter (fun r => r.strike = some k)).map
        (fun r => r.delta.getD 0 * r.openInterest.getD 0 * 100)).sum := by
  apply sumOpt_map_eq
  intro r hr
  exact rowDex_of_noNull r (h r (List.mem_of_mem_filter hr))

theorem sideSum_of_absent (rows : List RawRow) (col : RawRow → Option ℚ)
    (k : ℚ) (h : ∀ r ∈ rows, r.strike ≠ some k) :
    sideSum rows col k = 0 := by
  have hnil : rows.filter (fun r => r.strike = some k) = [] := by
    rw [List.filter_eq_nil_iff]
    intro r hr
    simpa using h r hr
  simp [sideSum, hnil, sumOpt]

/-- Claim C3: on a chain with usable, null-free greek data, every row of
the exposure profile satisfies: the call-side GEX at its strike is the
sum of `gamma * openInterest * 100` over the call rows at that strike,
the put-side GEX is `-1` times the analogous unsigned put sum, both DEX
sides sum `delta * openInterest * 100` (put delta signed at source, no
flip), `net_gex` is the sum of the sign-adjusted per-side GEX sums
(equivalently the call GEX sum minus the unsigned put GEX sum),
`net_dex` the analogous DEX sum, and a side with no row at the strike
contributes 0. -/
theorem exposure_aggregates_spec (calls puts : RawFrame)
    (hc : greeksUsable calls = true) (hp : greeksUsable puts = true)
    (hcn : ∀ r ∈ calls.rows, noNullRow r = true)
    (hpn : ∀ r ∈ puts.rows, noNullRow r = true) :
    ∀ p ∈ (calculate_exposure_profiles calls puts).1.profile,
      p.call_gex = ((calls.rows.filter (fun r => r.strike = some p.strike)).map
        (fun r => r.gamma.getD 0 * r.openInterest.getD 0 * 100)).sum ∧
      p.call_dex = ((calls.rows.filter (fun r => r.strike = some p.strike)).map
        (fun r => r.delta.getD 0 * r.openInterest.getD 0 * 100)).sum ∧
      p.put_gex = -1 * ((puts.rows.filter (fun r => r.strike = some p.strike)).map
        (fun r => r.gamma.getD 0 * r.openInterest.getD 0 * 100)).sum ∧
      p.put_dex = ((puts.rows.filter (fun r => r.strike = some p.strike)).map
        (fun r => r.delta.getD 0 * r.openInterest.getD 0 * 100)).sum ∧
      p.net_gex = p.call_gex + p.put_gex ∧
      p.net_gex = ((calls.rows.filter (fun r => r.strike = some p.strike)).map
          (fun r => r.gamma.getD 0 * r.openInterest.getD 0 * 100)).sum -
        ((puts.rows.filter (fun r => r.strike = some p.strike)).map
          (fun r => r.gamma.getD 0 * r.openInterest.getD 0 * 100)).sum ∧
      p.net_dex = p.call_dex + p.put_dex ∧
      ((∀ r ∈ puts.rows, r.strike ≠ some p.strike) →
        p.net_gex = p.call_gex ∧ p.net_dex = p.call_dex) ∧
      ((∀ r ∈ calls.rows, r.strike ≠ some p.strike) →
        p.net_gex = p.put_gex ∧ p.net_dex = p.put_dex) := by
  intro p hmem
  have hprof : (calculate_exposure_profiles calls puts).1.profile =
      (profileStrikes calls puts).map (profileAt calls puts) := by
    simp [calculate_exposure_profiles, hc, hp]
  rw [hprof] at hmem
  rcases List.mem_map.mp hmem with ⟨k, hk, rfl⟩
  simp only [show (profileAt calls puts k).strike = k from rfl]
  have hcg := sideSum_callGex calls.rows k hcn
  have hcd := sideSum_rowDex calls.rows k hcn
  have hpg := sideSum_putGex puts.rows k hpn
  have hpd := sideSum_rowDex puts.rows k hpn
  refine ⟨hcg, hcd, hpg, hpd, rfl, ?_, rfl, ?_, ?_⟩
  · show sideSum calls.rows callGex k + sideSum puts.rows putGex k = _
    rw [hcg, hpg]
    ring
  · intro habs
    constructor
    · show sideSum calls.rows callGex k + sideSum puts.rows putGex k =
        sideSum calls.rows callGex k
      rw [sideSum_of_absent puts.rows putGex k habs, add_zero]
    · show sideSum calls.rows rowDex k + sideSum puts.rows rowDex k =
        sideSum calls.rows rowDex k
      rw [sideSum_of_absent puts.rows rowDex k habs, add_zero]
  · intro habs
    constructor
    · show sideSum calls.rows callGex k + sideSum puts.rows putGex k =
        sideSum puts.rows putGex k
      rw [sideSum_of_absent calls.rows callGex k habs, zero_add]
    · show sideSum calls.rows rowDex k + sideSum puts.rows rowDex k =
        sideSum puts.rows rowDex k
      rw [sideSum_of_absent calls.rows rowDex k habs, zero_add]

/-- Witness for C3 at the all-zero-greeks chain (usable and null-free),
instantiated at the profile row of strike 90. -/
theorem exposure_aggregates_spec_witness :
    (profileAt zeroGreekCalls zeroGreekPuts 90).call_gex =
      ((zeroGreekCalls.rows.filter (fun r => r.strike =
          some (profileAt zeroGreekCalls zeroGreekPuts 90).strike)).map
        (fun r => r.gamma.getD 0 * r.openInterest.getD 0 * 100)).sum ∧
    (profileAt zeroGreekCalls zeroGreekPuts 90).call_dex =
      ((zeroGreekCalls.rows.filter (fun r => r.strike =
          some (profileAt zeroGreekCalls zeroGreekPuts 90).strike)).map
        (fun r => r.delta.getD 0 * r.openInterest.getD 0 * 100)).sum ∧
    (profileAt zeroGreekCalls zeroGreekPuts 90).put_gex =
      -1 * ((zeroGreekPuts.rows.filter (fun r => r.strike =
          some (profileAt zeroGreekCalls zeroGreekPuts 90).strike)).map
        (fun r => r.gamma.getD 0 * r.openInterest.getD 0 * 100)).sum ∧
    (profileAt zeroGreekCalls zeroGreekPuts 90).put_dex =
      ((zeroGreekPuts.rows.filter (fun r => r.strike =
          some (profileAt zeroGreekCalls zeroGreekPuts 90).strike)).map
        (fun r => r.delta.getD 0 * r.openInterest.getD 0 * 100)).sum ∧
    (profileAt zeroGreekCalls zeroGreekPuts 90).net_gex =
      (profileAt zeroGreekCalls zeroGreekPuts 90).call_gex +
        (profileAt zeroGreekCalls zeroGreekPuts 90).put_gex ∧
    (profileAt zeroGreekCalls zeroGreekPuts 90).net_gex =
      ((zeroGreekCalls.rows.filter (fun r => r.strike =
          some (profileAt zeroGreekCalls zeroGreekPuts 90).strike)).map
        (fun r => r.gamma.getD 0 * r.openInterest.getD 0 * 100)).sum -
      ((zeroGreekPuts.rows.filter (fun r => r.strike =
          some (profileAt zeroGreekCalls zeroGreekPuts 90).strike)).map
        (fun r => r.gamma.getD 0 * r.openInterest.getD 0 * 100)).sum ∧
    (profileAt zeroGreekCalls zeroGreekPuts 90).net_dex =
      (profileAt zeroGreekCalls zeroGreekPuts 90).call_dex +
        (profileAt zeroGreekCalls zeroGreekPuts 90).put_dex ∧
    ((∀ r ∈ zeroGreekPuts.rows, r.strike ≠
        some (profileAt zeroGreekCalls zeroGreekPuts 90).strike) →
      (profileAt zeroGreekCalls zeroGreekPuts 90).net_gex =
        (profileAt zeroGreekCalls zeroGreekPuts 90).call_gex ∧
      (profileAt zeroGreekCalls zeroGreekPuts 90).net_dex =
        (profileAt zeroGreekCalls zeroGreekPuts 90).call_dex) ∧
    ((∀ r ∈ zeroGreekCalls.rows, r.strike ≠
        some (profileAt zeroGreekCalls zeroGreekPuts 90).strike) →
      (profileAt zeroGreekCalls zeroGreekPuts 90).net_gex =
        (profileAt zeroGreekCalls zeroGreekPuts 90).put_gex ∧
      (profileAt zeroGreekCalls zeroGreekPuts 90).net_dex =
        (profileAt zeroGreekCalls zeroGreekPuts 90).put_dex) := by
  have hprof : (calculate_exposure_profiles zeroGreekCalls zeroGreekPuts).1.profile =
      (profileStrikes zeroGreekCalls zeroGreekPuts).map
        (profileAt zeroGreekCalls zeroGreekPuts) := by
    simp [calculate_exposure_profiles,
      show greeksUsable zeroGreekCalls = true from by decide,
      show greeksUsable zeroGreekPuts = true from by decide]
  have hmem : profileAt zeroGreekCalls zeroGreekPuts 90 ∈
      (calculate_exposure_profiles zeroGreekCalls zeroGreekPuts).1.profile := by
    rw [hprof]
    exact List.mem_map_of_mem _
      ((mem_profileStrikes zeroGreekCalls zeroGreekPuts 90).mpr
        (Or.inl ⟨⟨some 90, some 100, some 0, some 0, none, none⟩,
          by simp [zeroGreekCalls], rfl⟩))
  exact exposure_aggregates_spec zeroGreekCalls zeroGreekPuts
    (by decide) (by decide) (by decide) (by decide)
    (profileAt zeroGreekCalls zeroGreekPuts 90) hmem

/-- Claim C9 counterexample: the claim says every analyzer operation
leaves the caller's call and put row structures with exactly the same
fields and values.  But `analyze_options_overview` assigns the
`oi_vol_product` column on the caller's frames in place: on the
concrete two-strike chain the calls frame had no `oi_vol_product`
column before the call and holds computed scores after it. -/
theorem overview_mutates_inputs :
    demoCalls.map OptionRow.oi_vol_product = [none, none] ∧
    ((analyze_options_overview demoCalls demoPuts).2.1).map
      OptionRow.oi_vol_product = [some 0, some 0] := by
  constructor
  · rfl
  · norm_num [analyze_options_overview, addOiVolColumn, demoCalls,
      oiVolScore]

/-- Claim C9 (amended): `calculate_max_pain` only reads its inputs, and
the overview and exposure operations never change the value of any
source field of any input row — but they do extend the caller's frames
in place with derived columns (`oi_vol_product` for the overview;
`gex`/`dex` for the exposure builder when greek data is usable), so the
input frames are not left byte-identical.  Stated here: after each
operation the source columns of every row of both returned frames are
exactly those of the corresponding input row, in order. -/
theorem analyzer_preserves_source_columns (calls puts : List OptionRow)
    (cf pf : RawFrame) :
    ((analyze_options_overview calls puts).2.1).map baseOf =
      calls.map baseOf ∧
    ((analyze_options_overview calls puts).2.2).map baseOf =
      puts.map baseOf ∧
    ((calculate_exposure_profiles cf pf).2.1).rows.map rawBaseOf =
      cf.rows.map rawBaseOf ∧
    ((calculate_exposure_profiles cf pf).2.2).rows.map rawBaseOf =
      pf.rows.map rawBaseOf := by
  refine ⟨?_, ?_, ?_, ?_⟩
  · simp [analyze_options_overview, addOiVolColumn, List.map_map,
      Function.comp, baseOf]
  · simp [analyze_options_overview, addOiVolColumn, List.map_map,
      Function.comp, baseOf]
  · by_cases h : (greeksUsable cf && greeksUsable pf) = true
    · simp [calculate_exposure_profiles, h, addExposureCols, List.map_map,
        Function.comp, rawBaseOf]
    · simp [calculate_exposure_profiles, h]
  · by_cases h : (greeksUsable cf && greeksUsable pf) = true
    · simp [calculate_exposure_profiles, h, addExposureCols, List.map_map,
        Function.comp, rawBaseOf]
    · simp [calculate_exposure_profiles, h]

/-- Witness for the amended C9 at the concrete chains. -/
theorem analyzer_preserves_source_columns_witness :
    ((analyze_options_overview demoCalls demoPuts).2.1).map baseOf =
      demoCalls.map baseOf ∧
    ((analyze_options_overview demoCalls demoPuts).2.2).map baseOf =
      demoPuts.map baseOf ∧
    ((calculate_exposure_profiles zeroGreekCalls zeroGreekPuts).2.1).rows.map
      rawBaseOf = zeroGreekCalls.rows.map rawBaseOf ∧
    ((calculate_exposure_profiles zeroGreekCalls zeroGreekPuts).2.2).rows.map
      rawBaseOf = zeroGreekPuts.rows.map rawBaseOf :=
  analyzer_preserves_source_columns demoCalls demoPuts zeroGreekCalls
    zeroGreekPuts
